import Mathlib

set_option maxHeartbeats 1000000

/-!
Shallow embedding of `src/comicMerge.py` and verification of the
specification's claims about it.

Strings are modelled as `List Char` (sequences of code points), matching
Python string semantics for the ASCII filenames and captions the tool
processes.  Fallible code (code that can raise) returns `Option`.
-/

/-- Convert a Lean string literal to the `List Char` representation used
throughout the development. -/
def lstr (s : String) : List Char := s.data

/-- ASCII decimal digit test, modelling the character class of the regex
`(\d+)` and `str.isdigit` on the ASCII filenames the tool handles. -/
def isDigitCh (c : Char) : Bool := 48 ≤ c.toNat && c.toNat ≤ 57

/-- Python `str.lower` on an ASCII character. -/
def lowerC (c : Char) : Char :=
  if 65 ≤ c.toNat && c.toNat ≤ 90 then Char.ofNat (c.toNat + 32) else c

/-- Accumulator pass for `re.split` on the pattern `(\d+)` : `acc` is the
reversed run being gathered, `inDigit` tells whether that run is a digit
run. -/
def sdAux : List Char → List Char → Bool → List (List Char)
  | [], acc, inDigit => if inDigit then [acc.reverse, []] else [acc.reverse]
  | c :: cs, acc, inDigit =>
    if isDigitCh c then
      if inDigit then sdAux cs (c :: acc) true
      else acc.reverse :: sdAux cs [c] true
    else
      if inDigit then acc.reverse :: sdAux cs [c] false
      else sdAux cs (c :: acc) false

/-- `re.split` with pattern `(\d+)` applied to `s`: the pieces of `s`
between maximal digit runs, with the captured digit runs kept, starting
and ending with a possibly empty non-digit piece. -/
def splitDigits (s : List Char) : List (List Char) := sdAux s [] false

/-- Python `str.isdigit` (ASCII): nonempty and consisting of digits. -/
def pyIsDigit (p : List Char) : Bool := !p.isEmpty && p.all isDigitCh

/-- Decimal value of a digit string: Python `int(part)` applied to the
captured digit groups. -/
def valC (p : List Char) : Nat := p.foldl (fun a c => 10 * a + (c.toNat - 48)) 0

/-- A token of the Python sort key: `int(part)` for digit groups,
`part.lower()` for the other pieces. -/
inductive PyKey where
  | int (n : Nat) : PyKey
  | str (s : List Char) : PyKey
deriving DecidableEq

/-- The key token made from one piece of the split:
`int(part) if part.isdigit() else part.lower()`. -/
def tokOf (p : List Char) : PyKey :=
  if pyIsDigit p then .int (valC p) else .str (p.map lowerC)

/-- `natural_sort_key` from the source: split on maximal digit runs;
digit groups become integers, the remaining pieces are lowercased. -/
def natural_sort_key (s : List Char) : List PyKey :=
  (splitDigits s).map tokOf

/-- Comparison of characters by code point, as Python compares characters
inside strings. -/
def charCmp (a b : Char) : Ordering := compare a.toNat b.toNat

/-- Lexicographic comparison of two character lists, modelling Python
string comparison. -/
def lexCmpC : List Char → List Char → Ordering
  | [], [] => .eq
  | [], _ :: _ => .lt
  | _ :: _, [] => .gt
  | a :: as, b :: bs =>
    match charCmp a b with
    | .lt => .lt
    | .eq => lexCmpC as bs
    | .gt => .gt

/-- Comparison of two key tokens.  Comparing an `int` token with a `str`
token raises `TypeError` in Python; that fault is modelled by `none`. -/
def tokCmp : PyKey → PyKey → Option Ordering
  | .int a, .int b => some (compare a b)
  | .str a, .str b => some (lexCmpC a b)
  | _, _ => none

/-- Python list comparison of two keys: the first differing position
decides, a strict prefix is smaller, and a type-mismatched differing
position faults (`none`). -/
def keyCmp : List PyKey → List PyKey → Option Ordering
  | [], [] => some .eq
  | [], _ :: _ => some .lt
  | _ :: _, [] => some .gt
  | a :: as, b :: bs =>
    match tokCmp a b with
    | none => none
    | some .lt => some .lt
    | some .eq => keyCmp as bs
    | some .gt => some .gt

/-- The "key of `a` does not exceed key of `b`" relation under which
`sorted(..., key=natural_sort_key)` arranges filenames. -/
def natLe (a b : List Char) : Prop :=
  keyCmp (natural_sort_key a) (natural_sort_key b) ≠ some Ordering.gt

instance : DecidableRel natLe := fun a b => by unfold natLe; infer_instance

/-- `sorted(l, key=natural_sort_key)`: Python's stable sort, modelled by
stable insertion sort. -/
def sortNat (l : List (List Char)) : List (List Char) := List.insertionSort natLe l

/-- Token-type alternation of a key: `alt true` expects a string token
next, `alt false` an integer token. -/
def alt : Bool → List PyKey → Bool
  | _, [] => true
  | b, .str _ :: r => b && alt false r
  | b, .int _ :: r => !b && alt true r

theorem pyIsDigit_false_of_all_not {p : List Char}
    (h : ∀ c ∈ p, isDigitCh c = false) : pyIsDigit p = false := by
  cases p with
  | nil => rfl
  | cons a as =>
    have ha := h a (List.mem_cons_self a as)
    simp [pyIsDigit, List.all_eq_true, ha]

theorem pyIsDigit_true_of_all {p : List Char} (hne : p ≠ [])
    (h : ∀ c ∈ p, isDigitCh c = true) : pyIsDigit p = true := by
  cases p with
  | nil => exact absurd rfl hne
  | cons a as =>
    simp [pyIsDigit, List.all_eq_true]
    exact ⟨h a (List.mem_cons_self a as),
      fun c hc => h c (List.mem_cons_of_mem a hc)⟩

theorem sdAux_alt (cs : List Char) :
    (∀ acc, (∀ c ∈ acc, isDigitCh c = false) →
      alt true ((sdAux cs acc false).map tokOf) = true) ∧
    (∀ acc, acc ≠ [] → (∀ c ∈ acc, isDigitCh c = true) →
      alt false ((sdAux cs acc true).map tokOf) = true) := by
  induction cs with
  | nil =>
    refine ⟨fun acc h => ?_, fun acc hne h => ?_⟩
    · have hd : pyIsDigit acc.reverse = false :=
        pyIsDigit_false_of_all_not (fun c hc => h c (List.mem_reverse.mp hc))
      simp [sdAux, tokOf, hd, alt]
    · have hd : pyIsDigit acc.reverse = true :=
        pyIsDigit_true_of_all (by simpa using hne)
          (fun c hc => h c (List.mem_reverse.mp hc))
      simp [sdAux, tokOf, hd, alt]
  | cons c cs ih =>
    refine ⟨fun acc h => ?_, fun acc hne h => ?_⟩
    · by_cases hc : isDigitCh c = true
      · have hd : pyIsDigit acc.reverse = false :=
          pyIsDigit_false_of_all_not (fun x hx => h x (List.mem_reverse.mp hx))
        simp [sdAux, hc, tokOf, hd, alt]
        exact ih.2 [c] (by simp) (by simpa using hc)
      · simp [sdAux, hc]
        exact ih.1 (c :: acc) (by
          intro x hx
          rcases List.mem_cons.mp hx with h1 | h2
          · simpa [h1] using hc
          · exact h x h2)
    · by_cases hc : isDigitCh c = true
      · simp [sdAux, hc]
        exact ih.2 (c :: acc) (by simp) (by
          intro x hx
          rcases List.mem_cons.mp hx with h1 | h2
          · simpa [h1] using hc
          · exact h x h2)
      · have hd : pyIsDigit acc.reverse = true :=
          pyIsDigit_true_of_all (by simpa using hne)
            (fun x hx => h x (List.mem_reverse.mp hx))
        simp [sdAux, hc, tokOf, hd, alt]
        exact ih.1 [c] (by simpa using hc)

/-- Every key produced by `natural_sort_key` alternates string and
integer tokens, starting with a string token. -/
theorem natural_sort_key_alt (s : List Char) :
    alt true (natural_sort_key s) = true :=
  (sdAux_alt s).1 [] (by simp)

theorem keyCmp_isSome_of_alt :
    ∀ (k1 : List PyKey) (b : Bool) (k2 : List PyKey),
      alt b k1 = true → alt b k2 = true → (keyCmp k1 k2).isSome = true := by
  intro k1
  induction k1 with
  | nil => intro b k2 _ _; cases k2 <;> simp [keyCmp]
  | cons t1 r1 ih =>
    intro b k2 h1 h2
    cases k2 with
    | nil => simp [keyCmp]
    | cons t2 r2 =>
      cases t1 with
      | int a =>
        cases t2 with
        | int a' =>
          have hb : b = false := by
            cases b
            · rfl
            · simp [alt] at h1
          subst hb
          simp [alt] at h1 h2
          have := ih true r2 h1 h2
          simp [keyCmp, tokCmp]
          rcases hcmp : compare a a' with _ | _ | _ <;> simp [hcmp, this]
        | str s' =>
          cases b <;> simp [alt] at h1 h2
      | str s =>
        cases t2 with
        | int a' =>
          cases b <;> simp [alt] at h1 h2
        | str s' =>
          have hb : b = true := by
            cases b
            · simp [alt] at h1
            · rfl
          subst hb
          simp [alt] at h1 h2
          have := ih false r2 h1 h2
          simp [keyCmp, tokCmp]
          rcases hcmp : lexCmpC s s' with _ | _ | _ <;> simp [hcmp, this]

theorem char_eq_of_toNat_eq {a b : Char} (h : a.toNat = b.toNat) : a = b := by
  cases a; cases b
  simp only [Char.toNat] at h
  congr 1
  exact UInt32.ext h

theorem charCmp_eq_iff {a b : Char} : charCmp a b = .eq ↔ a = b := by
  unfold charCmp
  rw [Nat.compare_eq_eq]
  exact ⟨char_eq_of_toNat_eq, fun h => by rw [h]⟩

theorem charCmp_swap (a b : Char) : charCmp b a = (charCmp a b).swap := by
  unfold charCmp
  exact (Nat.compare_swap _ _).symm

theorem charCmp_lt_trans {a b c : Char} (h1 : charCmp a b = .lt)
    (h2 : charCmp b c = .lt) : charCmp a c = .lt := by
  unfold charCmp at h1 h2 ⊢
  exact Nat.compare_eq_lt.mpr
    (Nat.lt_trans (Nat.compare_eq_lt.mp h1) (Nat.compare_eq_lt.mp h2))

theorem lexCmpC_eq_iff : ∀ {a b : List Char}, lexCmpC a b = .eq ↔ a = b := by
  intro a
  induction a with
  | nil => intro b; cases b <;> simp [lexCmpC]
  | cons x xs ih =>
    intro b
    cases b with
    | nil => simp [lexCmpC]
    | cons y ys =>
      rcases hc : charCmp x y with _ | _ | _
      · simp only [lexCmpC, hc]
        constructor
        · intro h; exact absurd h (by simp)
        · rintro h
          injection h with h1 h2
          rw [h1, charCmp_eq_iff.mpr rfl] at hc
          exact absurd hc (by simp)
      · have hxy : x = y := charCmp_eq_iff.mp hc
        subst hxy
        simp [lexCmpC, hc, ih]
      · simp only [lexCmpC, hc]
        constructor
        · intro h; exact absurd h (by simp)
        · rintro h
          injection h with h1 h2
          rw [h1, charCmp_eq_iff.mpr rfl] at hc
          exact absurd hc (by simp)

theorem lexCmpC_swap : ∀ (a b : List Char), lexCmpC b a = (lexCmpC a b).swap := by
  intro a
  induction a with
  | nil => intro b; cases b <;> rfl
  | cons x xs ih =>
    intro b
    cases b with
    | nil => rfl
    | cons y ys =>
      have hs := charCmp_swap x y
      rcases hc : charCmp x y with _ | _ | _ <;> rw [hc] at hs <;>
        simp [lexCmpC, hc, hs, ih, Ordering.swap]

theorem lexCmpC_lt_trans : ∀ {a b c : List Char},
    lexCmpC a b = .lt → lexCmpC b c = .lt → lexCmpC a c = .lt := by
  intro a
  induction a with
  | nil =>
    intro b c h1 h2
    cases b with
    | nil => simp [lexCmpC] at h1
    | cons y ys =>
      cases c with
      | nil => simp [lexCmpC] at h2
      | cons z zs => simp [lexCmpC]
  | cons x xs ih =>
    intro b c h1 h2
    cases b with
    | nil => simp [lexCmpC] at h1
    | cons y ys =>
      cases c with
      | nil => simp [lexCmpC] at h2
      | cons z zs =>
        rcases hxy : charCmp x y with _ | _ | _
        · rcases hyz : charCmp y z with _ | _ | _
          · simp [lexCmpC, charCmp_lt_trans hxy hyz]
          · have : y = z := charCmp_eq_iff.mp hyz
            subst this
            simp [lexCmpC, hxy]
          · simp [lexCmpC, hyz] at h2
        · have : x = y := charCmp_eq_iff.mp hxy
          subst this
          simp only [lexCmpC, hxy] at h1
          rcases hyz : charCmp x z with _ | _ | _
          · simp [lexCmpC, hyz]
          · have : x = z := charCmp_eq_iff.mp hyz
            subst this
            simp only [lexCmpC, hyz] at h2 ⊢
            exact ih h1 h2
          · simp [lexCmpC, hyz] at h2
        · simp [lexCmpC, hxy] at h1

theorem tokCmp_eq_iff : ∀ {a b : PyKey}, tokCmp a b = some .eq ↔ a = b := by
  intro a b
  cases a <;> cases b <;> simp [tokCmp, Nat.compare_eq_eq, lexCmpC_eq_iff]

theorem tokCmp_swap (a b : PyKey) : tokCmp b a = (tokCmp a b).map Ordering.swap := by
  cases a <;> cases b <;> simp [tokCmp]
  · exact (Nat.compare_swap _ _).symm
  · exact lexCmpC_swap _ _

theorem tokCmp_lt_trans : ∀ {a b c : PyKey}, tokCmp a b = some .lt →
    tokCmp b c = some .lt → tokCmp a c = some .lt := by
  intro a b c h1 h2
  cases a <;> cases b <;> cases c <;> simp [tokCmp] at h1 h2 ⊢
  · exact Nat.compare_eq_lt.mpr
      (Nat.lt_trans (Nat.compare_eq_lt.mp h1) (Nat.compare_eq_lt.mp h2))
  · exact lexCmpC_lt_trans h1 h2

theorem keyCmp_eq_iff : ∀ {k1 k2 : List PyKey}, keyCmp k1 k2 = some .eq ↔ k1 = k2 := by
  intro k1
  induction k1 with
  | nil => intro k2; cases k2 <;> simp [keyCmp]
  | cons t1 r1 ih =>
    intro k2
    cases k2 with
    | nil => simp [keyCmp]
    | cons t2 r2 =>
      rcases ht : tokCmp t1 t2 with _ | o
      · simp only [keyCmp, ht]
        constructor
        · intro h; exact absurd h (by simp)
        · rintro h
          injection h with h1 h2
          rw [h1, tokCmp_eq_iff.mpr rfl] at ht
          exact absurd ht (by simp)
      · rcases o with _ | _ | _
        · simp only [keyCmp, ht]
          constructor
          · intro h; exact absurd h (by simp)
          · rintro h
            injection h with h1 h2
            rw [h1, tokCmp_eq_iff.mpr rfl] at ht
            exact absurd ht (by simp)
        · have : t1 = t2 := tokCmp_eq_iff.mp ht
          subst this
          simp [keyCmp, ht, ih]
        · simp only [keyCmp, ht]
          constructor
          · intro h; exact absurd h (by simp)
          · rintro h
            injection h with h1 h2
            rw [h1, tokCmp_eq_iff.mpr rfl] at ht
            exact absurd ht (by simp)

theorem keyCmp_swap : ∀ (k1 k2 : List PyKey),
    keyCmp k2 k1 = (keyCmp k1 k2).map Ordering.swap := by
  intro k1
  induction k1 with
  | nil => intro k2; cases k2 <;> rfl
  | cons t1 r1 ih =>
    intro k2
    cases k2 with
    | nil => rfl
    | cons t2 r2 =>
      have hs := tokCmp_swap t1 t2
      rcases ht : tokCmp t1 t2 with _ | o
      · rw [ht] at hs
        simp only [Option.map] at hs
        simp [keyCmp, ht, hs]
      · rw [ht] at hs
        simp only [Option.map] at hs
        rcases o with _ | _ | _ <;>
          simp [keyCmp, ht, hs, Ordering.swap, ih]

theorem keyCmp_lt_trans : ∀ {k1 k2 k3 : List PyKey}, keyCmp k1 k2 = some .lt →
    keyCmp k2 k3 = some .lt → keyCmp k1 k3 = some .lt := by
  intro k1
  induction k1 with
  | nil =>
    intro k2 k3 h1 h2
    cases k2 with
    | nil => simp [keyCmp] at h1
    | cons t2 r2 =>
      cases k3 with
      | nil => simp [keyCmp] at h2
      | cons t3 r3 => simp [keyCmp]
  | cons t1 r1 ih =>
    intro k2 k3 h1 h2
    cases k2 with
    | nil => simp [keyCmp] at h1
    | cons t2 r2 =>
      cases k3 with
      | nil => simp [keyCmp] at h2
      | cons t3 r3 =>
        rcases h12 : tokCmp t1 t2 with _ | o12
        · simp [keyCmp, h12] at h1
        · rcases o12 with _ | _ | _
          · rcases h23 : tokCmp t2 t3 with _ | o23
            · simp [keyCmp, h23] at h2
            · rcases o23 with _ | _ | _
              · simp [keyCmp, tokCmp_lt_trans h12 h23]
              · have : t2 = t3 := tokCmp_eq_iff.mp h23
                subst this
                simp [keyCmp, h12]
              · simp [keyCmp, h23] at h2
          · have : t1 = t2 := tokCmp_eq_iff.mp h12
            subst this
            simp only [keyCmp, h12] at h1
            rcases h23 : tokCmp t1 t3 with _ | o23
            · simp [keyCmp, h23] at h2
            · rcases o23 with _ | _ | _
              · simp [keyCmp, h23]
              · have : t1 = t3 := tokCmp_eq_iff.mp h23
                subst this
                simp only [keyCmp, h23] at h2 ⊢
                exact ih h1 h2
              · simp [keyCmp, h23] at h2
          · simp [keyCmp, h12] at h1

theorem natLe_total : ∀ a b : List Char, natLe a b ∨ natLe b a := by
  intro a b
  have hs : (keyCmp (natural_sort_key a) (natural_sort_key b)).isSome = true :=
    keyCmp_isSome_of_alt _ true _ (natural_sort_key_alt a) (natural_sort_key_alt b)
  rcases Option.isSome_iff_exists.mp hs with ⟨o, ho⟩
  rcases o with _ | _ | _
  · exact Or.inl (by simp [natLe, ho])
  · exact Or.inl (by simp [natLe, ho])
  · refine Or.inr ?_
    have := keyCmp_swap (natural_sort_key a) (natural_sort_key b)
    rw [ho] at this
    simp only [Option.map, Ordering.swap] at this
    simp [natLe, this]

theorem natLe_trans : ∀ {a b c : List Char}, natLe a b → natLe b c → natLe a c := by
  intro a b c h1 h2
  have ha : (keyCmp (natural_sort_key a) (natural_sort_key b)).isSome = true :=
    keyCmp_isSome_of_alt _ true _ (natural_sort_key_alt a) (natural_sort_key_alt b)
  have hb : (keyCmp (natural_sort_key b) (natural_sort_key c)).isSome = true :=
    keyCmp_isSome_of_alt _ true _ (natural_sort_key_alt b) (natural_sort_key_alt c)
  rcases Option.isSome_iff_exists.mp ha with ⟨o1, ho1⟩
  rcases Option.isSome_iff_exists.mp hb with ⟨o2, ho2⟩
  rcases o1 with _ | _ | _
  · rcases o2 with _ | _ | _
    · simp [natLe, keyCmp_lt_trans ho1 ho2]
    · have : natural_sort_key b = natural_sort_key c := keyCmp_eq_iff.mp ho2
      simp [natLe, ← this, ho1]
    · exact absurd ho2 h2
  · have : natural_sort_key a = natural_sort_key b := keyCmp_eq_iff.mp ho1
    simp [natLe, this, ho2]
    intro hcon
    rw [hcon] at ho2
    exact absurd ho2 h2
  · exact absurd ho1 (by intro hcon; exact h1 hcon)

instance : IsTotal (List Char) natLe := ⟨natLe_total⟩

instance : IsTrans (List Char) natLe := ⟨fun _ _ _ => natLe_trans⟩

theorem sdAux_all_digit : ∀ (cs acc : List Char), (∀ c ∈ cs, isDigitCh c = true) →
    sdAux cs acc true = [acc.reverse ++ cs, []] := by
  intro cs
  induction cs with
  | nil => intro acc _; simp [sdAux]
  | cons c cs ih =>
    intro acc h
    have hc := h c (List.mem_cons_self c cs)
    simp only [sdAux, hc, if_true]
    rw [ih (c :: acc) (fun x hx => h x (List.mem_cons_of_mem c hx))]
    simp

theorem splitDigits_all_digit {l : List Char} (hne : l ≠ [])
    (h : ∀ c ∈ l, isDigitCh c = true) : splitDigits l = [[], l, []] := by
  cases l with
  | nil => exact absurd rfl hne
  | cons c cs =>
    have hc := h c (List.mem_cons_self c cs)
    simp only [splitDigits, sdAux, hc, if_true]
    rw [sdAux_all_digit cs [c] (fun x hx => h x (List.mem_cons_of_mem c hx))]
    simp

theorem sdAux_no_digit : ∀ (cs acc : List Char), (∀ c ∈ cs, isDigitCh c = false) →
    sdAux cs acc false = [acc.reverse ++ cs] := by
  intro cs
  induction cs with
  | nil => intro acc _; simp [sdAux]
  | cons c cs ih =>
    intro acc h
    have hc := h c (List.mem_cons_self c cs)
    simp only [sdAux, hc, Bool.false_eq_true, if_false]
    rw [ih (c :: acc) (fun x hx => h x (List.mem_cons_of_mem c hx))]
    simp

theorem splitDigits_no_digit {s : List Char}
    (h : ∀ c ∈ s, isDigitCh c = false) : splitDigits s = [s] := by
  simpa using sdAux_no_digit s [] h

theorem natural_sort_key_all_digit {l : List Char} (hne : l ≠ [])
    (h : ∀ c ∈ l, isDigitCh c = true) :
    natural_sort_key l = [.str [], .int (valC l), .str []] := by
  unfold natural_sort_key
  rw [splitDigits_all_digit hne h]
  have hd := pyIsDigit_true_of_all hne h
  have hnil : pyIsDigit [] = false := rfl
  simp [tokOf, hd, hnil]

theorem natural_sort_key_no_digit {s : List Char}
    (h : ∀ c ∈ s, isDigitCh c = false) :
    natural_sort_key s = [.str (s.map lowerC)] := by
  unfold natural_sort_key
  rw [splitDigits_no_digit h]
  simp [tokOf, pyIsDigit_false_of_all_not h]

/-- Claim C3: `natural_sort_key` yields keys under which maximal digit
runs compare by integer value and non-digit runs compare
case-insensitively; sorting `["img2.png","img10.png","img1.png"]` yields
`["img1.png","img2.png","img10.png"]` and sorting `["B.png","a.png"]`
yields `["a.png","B.png"]`. -/
theorem natural_sort_key_spec :
    sortNat [lstr "img2.png", lstr "img10.png", lstr "img1.png"] =
      [lstr "img1.png", lstr "img2.png", lstr "img10.png"] ∧
    sortNat [lstr "B.png", lstr "a.png"] = [lstr "a.png", lstr "B.png"] ∧
    (∀ l1 l2 : List Char, l1 ≠ [] → l2 ≠ [] →
      (∀ c ∈ l1, isDigitCh c = true) → (∀ c ∈ l2, isDigitCh c = true) →
      keyCmp (natural_sort_key l1) (natural_sort_key l2) =
        some (compare (valC l1) (valC l2))) ∧
    (∀ s t : List Char,
      (∀ c ∈ s, isDigitCh c = false) → (∀ c ∈ t, isDigitCh c = false) →
      keyCmp (natural_sort_key s) (natural_sort_key t) =
        some (lexCmpC (s.map lowerC) (t.map lowerC))) := by
  refine ⟨by decide, by decide, fun l1 l2 h1ne h2ne h1 h2 => ?_, fun s t hs ht => ?_⟩
  · rw [natural_sort_key_all_digit h1ne h1, natural_sort_key_all_digit h2ne h2]
    rcases hc : compare (valC l1) (valC l2) with _ | _ | _ <;>
      simp [keyCmp, tokCmp, lexCmpC, hc]
  · rw [natural_sort_key_no_digit hs, natural_sort_key_no_digit ht]
    rcases hc : lexCmpC (s.map lowerC) (t.map lowerC) with _ | _ | _ <;>
      simp [keyCmp, tokCmp, hc]

/-- Witness for C3: concrete digit runs compare by value ("007" vs "7",
both value 7) and concrete non-digit runs compare case-insensitively
("ab" vs "B"). -/
theorem natural_sort_key_spec_witness :
    keyCmp (natural_sort_key (lstr "007")) (natural_sort_key (lstr "7")) =
      some (compare (valC (lstr "007")) (valC (lstr "7"))) ∧
    keyCmp (natural_sort_key (lstr "ab")) (natural_sort_key (lstr "B")) =
      some (lexCmpC ((lstr "ab").map lowerC) ((lstr "B").map lowerC)) :=
  ⟨natural_sort_key_spec.2.2.1 _ _ (by decide) (by decide) (by decide) (by decide),
   natural_sort_key_spec.2.2.2 _ _ (by decide) (by decide)⟩

/-- Claim C9 (amended): comparing keys produced by `natural_sort_key`
never faults, because token types never diverge at corresponding
positions (keys always alternate string and integer tokens, starting
with a string token); when token counts diverge the shorter key is
treated as a smaller prefix rather than raising an error, so the sort
relation is total on all filenames. -/
theorem natural_sort_key_cmp_total :
    (∀ s t : List Char, ∃ o : Ordering,
      keyCmp (natural_sort_key s) (natural_sort_key t) = some o) ∧
    (∀ a b : List Char, natLe a b ∨ natLe b a) :=
  ⟨fun s t => Option.isSome_iff_exists.mp
    (keyCmp_isSome_of_alt _ true _ (natural_sort_key_alt s) (natural_sort_key_alt t)),
   natLe_total⟩

/-- Counterexample for C9 as stated: for "a1" vs "a!" the token counts
diverge (3 vs 1), the comparison succeeds, and its result (`lt`) is the
opposite of a plain string comparison of the two filenames (`gt`), so
the code does not fall back to a string comparison in that case. -/
theorem natural_sort_key_fallback_cex :
    (natural_sort_key (lstr "a1")).length = 3 ∧
    (natural_sort_key (lstr "a!")).length = 1 ∧
    keyCmp (natural_sort_key (lstr "a1")) (natural_sort_key (lstr "a!")) =
      some Ordering.lt ∧
    lexCmpC (lstr "a1") (lstr "a!") = Ordering.gt := by decide

/-- The character of a decimal digit. -/
def digitChar (d : Nat) : Char := Char.ofNat (48 + d)

/-- Fuel-driven decimal formatting; the fuel only bounds recursion depth. -/
def decReprAux : Nat → Nat → List Char
  | 0, _ => []
  | fuel + 1, n =>
    if n < 10 then [digitChar n]
    else decReprAux fuel (n / 10) ++ [digitChar (n % 10)]

/-- Decimal representation of `n`: the digit string Python produces when
formatting a nonnegative integer. -/
def decRepr (n : Nat) : List Char := decReprAux (n + 1) n

/-- Python format spec `05d` as used in the f-strings of `merge_folders`:
the decimal representation left-padded with zeros to width at least 5. -/
def pad5 (n : Nat) : List Char :=
  List.replicate (5 - (decRepr n).length) '0' ++ decRepr n

theorem decReprAux_fuel : ∀ (f1 f2 n : Nat), n < f1 → n < f2 →
    decReprAux f1 n = decReprAux f2 n := by
  intro f1
  induction f1 with
  | zero => intro f2 n h1; exact absurd h1 (Nat.not_lt_zero n)
  | succ f1 ih =>
    intro f2 n h1 h2
    cases f2 with
    | zero => exact absurd h2 (Nat.not_lt_zero n)
    | succ f2 =>
      by_cases hn : n < 10
      · simp [decReprAux, hn]
      · have hd : n / 10 < n := Nat.div_lt_self (by omega) (by omega)
        have hf1 : n / 10 < f1 := by omega
        have hf2 : n / 10 < f2 := by omega
        simp only [decReprAux, hn, if_false]
        rw [ih f2 (n / 10) hf1 hf2]

theorem decRepr_eq (n : Nat) : decRepr n =
    if n < 10 then [digitChar n]
    else decRepr (n / 10) ++ [digitChar (n % 10)] := by
  by_cases hn : n < 10
  · simp [decRepr, decReprAux, hn]
  · have hd : n / 10 < n := Nat.div_lt_self (by omega) (by omega)
    rw [if_neg hn]
    calc decRepr n = decReprAux n (n / 10) ++ [digitChar (n % 10)] := by
          show decReprAux (n + 1) n = _
          rw [show decReprAux (n + 1) n = if n < 10 then [digitChar n]
              else decReprAux n (n / 10) ++ [digitChar (n % 10)] from rfl]
          rw [if_neg hn]
      _ = decReprAux (n / 10 + 1) (n / 10) ++ [digitChar (n % 10)] := by
          rw [decReprAux_fuel n (n / 10 + 1) (n / 10) hd (Nat.lt_succ_self _)]
      _ = decRepr (n / 10) ++ [digitChar (n % 10)] := rfl

theorem digitChar_toNat {d : Nat} (h : d < 10) : (digitChar d).toNat = 48 + d := by
  interval_cases d <;> rfl

theorem digitChar_isDigit {d : Nat} (h : d < 10) : isDigitCh (digitChar d) = true := by
  interval_cases d <;> rfl

theorem decRepr_ne_nil (n : Nat) : decRepr n ≠ [] := by
  rw [decRepr_eq]
  by_cases hn : n < 10 <;> simp [hn]

theorem decRepr_digits (n : Nat) : ∀ c ∈ decRepr n, isDigitCh c = true := by
  induction n using Nat.strong_induction_on with
  | _ n ih =>
    rw [decRepr_eq]
    by_cases hn : n < 10
    · simp [hn]
      exact digitChar_isDigit hn
    · have hd : n / 10 < n := Nat.div_lt_self (by omega) (by omega)
      simp only [hn, if_false]
      intro c hc
      rcases List.mem_append.mp hc with h1 | h2
      · exact ih (n / 10) hd c h1
      · rcases List.mem_singleton.mp h2 with rfl
        exact digitChar_isDigit (Nat.mod_lt n (by omega))

theorem valC_append_single (l : List Char) (c : Char) :
    valC (l ++ [c]) = 10 * valC l + (c.toNat - 48) := by
  unfold valC
  rw [List.foldl_append]
  rfl

theorem valC_decRepr (n : Nat) : valC (decRepr n) = n := by
  induction n using Nat.strong_induction_on with
  | _ n ih =>
    rw [decRepr_eq]
    by_cases hn : n < 10
    · simp [hn, valC, digitChar_toNat hn]
    · have hd : n / 10 < n := Nat.div_lt_self (by omega) (by omega)
      simp only [hn, if_false]
      rw [valC_append_single, ih (n / 10) hd,
        digitChar_toNat (Nat.mod_lt n (by omega))]
      omega

theorem decRepr_length_le : ∀ (k n : Nat), 1 ≤ k → n < 10 ^ k →
    (decRepr n).length ≤ k := by
  intro k
  induction k with
  | zero => intro n h; omega
  | succ k ih =>
    intro n _ hn
    rw [decRepr_eq]
    by_cases h10 : n < 10
    · rw [if_pos h10]
      simp
    · have hk : 1 ≤ k := by
        by_contra hc
        have : k = 0 := by omega
        subst this
        simp at hn
        omega
      have hdiv : n / 10 < 10 ^ k := by
        rw [Nat.div_lt_iff_lt_mul (by omega : 0 < 10)]
        calc n < 10 ^ (k + 1) := hn
          _ = 10 ^ k * 10 := by ring
      rw [if_neg h10]
      simp only [List.length_append, List.length_singleton]
      have := ih (n / 10) hk hdiv
      omega

theorem valC_foldl (l : List Char) : ∀ a : Nat,
    l.foldl (fun x c => 10 * x + (c.toNat - 48)) a = a * 10 ^ l.length + valC l := by
  induction l with
  | nil => intro a; simp [valC]
  | cons c t ih =>
    intro a
    show t.foldl _ (10 * a + (c.toNat - 48)) = _
    rw [ih (10 * a + (c.toNat - 48))]
    have hv : valC (c :: t) = (c.toNat - 48) * 10 ^ t.length + valC t := by
      show t.foldl _ (10 * 0 + (c.toNat - 48)) = _
      rw [ih (10 * 0 + (c.toNat - 48))]
      ring
    rw [hv]
    simp only [List.length_cons]
    ring

theorem valC_cons (c : Char) (t : List Char) :
    valC (c :: t) = (c.toNat - 48) * 10 ^ t.length + valC t := by
  show t.foldl _ (10 * 0 + (c.toNat - 48)) = _
  rw [valC_foldl t (10 * 0 + (c.toNat - 48))]
  ring

theorem valC_lt (l : List Char) (h : ∀ c ∈ l, isDigitCh c = true) :
    valC l < 10 ^ l.length := by
  induction l with
  | nil => simp [valC]
  | cons c t ih =>
    have hc := h c (List.mem_cons_self c t)
    simp only [isDigitCh, Bool.and_eq_true, decide_eq_true_eq] at hc
    have ht := ih (fun x hx => h x (List.mem_cons_of_mem c hx))
    rw [valC_cons]
    calc (c.toNat - 48) * 10 ^ t.length + valC t
        < (c.toNat - 48) * 10 ^ t.length + 10 ^ t.length := by omega
      _ = (c.toNat - 48 + 1) * 10 ^ t.length := by ring
      _ ≤ 10 * 10 ^ t.length := Nat.mul_le_mul_right _ (by omega)
      _ = 10 ^ (c :: t).length := by
          simp only [List.length_cons]
          ring

theorem lexCmpC_lt_of_valC_lt : ∀ (l1 l2 : List Char), l1.length = l2.length →
    (∀ c ∈ l1, isDigitCh c = true) → (∀ c ∈ l2, isDigitCh c = true) →
    valC l1 < valC l2 → lexCmpC l1 l2 = .lt := by
  intro l1
  induction l1 with
  | nil =>
    intro l2 hlen _ _ hv
    cases l2 with
    | nil => simp [valC] at hv
    | cons c t => simp at hlen
  | cons c1 t1 ih =>
    intro l2 hlen h1 h2 hv
    cases l2 with
    | nil => simp at hlen
    | cons c2 t2 =>
      have hlen' : t1.length = t2.length := by simpa using hlen
      have hc1 := h1 c1 (List.mem_cons_self c1 t1)
      have hc2 := h2 c2 (List.mem_cons_self c2 t2)
      simp only [isDigitCh, Bool.and_eq_true, decide_eq_true_eq] at hc1 hc2
      rcases hcc : charCmp c1 c2 with _ | _ | _
      · simp [lexCmpC, hcc]
      · have hceq : c1 = c2 := charCmp_eq_iff.mp hcc
        subst hceq
        rw [valC_cons, valC_cons, hlen'] at hv
        have hv' : valC t1 < valC t2 := by omega
        simp only [lexCmpC, hcc]
        exact ih t2 hlen' (fun x hx => h1 x (List.mem_cons_of_mem _ hx))
          (fun x hx => h2 x (List.mem_cons_of_mem _ hx)) hv'
      · exfalso
        have hgt : c2.toNat < c1.toNat := Nat.compare_eq_gt.mp hcc
        have hb2 : valC t2 < 10 ^ t2.length :=
          valC_lt t2 (fun x hx => h2 x (List.mem_cons_of_mem _ hx))
        rw [valC_cons, valC_cons, hlen'] at hv
        have hmul : (c2.toNat - 48 + 1) * 10 ^ t2.length ≤
            (c1.toNat - 48) * 10 ^ t2.length :=
          Nat.mul_le_mul_right _ (by omega)
        have hexp : (c2.toNat - 48 + 1) * 10 ^ t2.length =
            (c2.toNat - 48) * 10 ^ t2.length + 10 ^ t2.length := by ring
        omega

theorem lexCmpC_append_lt : ∀ (l1 l2 x y : List Char), l1.length = l2.length →
    lexCmpC l1 l2 = .lt → lexCmpC (l1 ++ x) (l2 ++ y) = .lt := by
  intro l1
  induction l1 with
  | nil =>
    intro l2 x y hlen h
    cases l2 with
    | nil => simp [lexCmpC] at h
    | cons c t => simp at hlen
  | cons c1 t1 ih =>
    intro l2 x y hlen h
    cases l2 with
    | nil => simp at hlen
    | cons c2 t2 =>
      rcases hcc : charCmp c1 c2 with _ | _ | _
      · simp [List.cons_append, lexCmpC, hcc]
      · simp only [List.cons_append, lexCmpC, hcc] at h ⊢
        exact ih t2 x y (by simpa using hlen) h
      · simp [lexCmpC, hcc] at h

theorem pad5_length {n : Nat} (h : n < 100000) : (pad5 n).length = 5 := by
  have h5 : (10 : Nat) ^ 5 = 100000 := by norm_num
  have hle : (decRepr n).length ≤ 5 := decRepr_length_le 5 n (by omega) (by omega)
  simp only [pad5, List.length_append, List.length_replicate]
  omega

theorem pad5_digits (n : Nat) : ∀ c ∈ pad5 n, isDigitCh c = true := by
  intro c hc
  rcases List.mem_append.mp hc with h1 | h2
  · rcases List.eq_of_mem_replicate h1 with rfl
    rfl
  · exact decRepr_digits n c h2

theorem valC_replicate_zero : ∀ (k : Nat) (l : List Char),
    valC (List.replicate k '0' ++ l) = valC l := by
  intro k
  induction k with
  | zero => intro l; simp
  | succ k ih =>
    intro l
    show valC ('0' :: (List.replicate k '0' ++ l)) = valC l
    unfold valC at ih ⊢
    simp only [List.foldl_cons]
    convert ih l using 2

theorem valC_pad5 (n : Nat) : valC (pad5 n) = n := by
  unfold pad5
  rw [valC_replicate_zero]
  exact valC_decRepr n

theorem pad5_mono {a b : Nat} (hab : a < b) (hb : b < 100000) :
    lexCmpC (pad5 a) (pad5 b) = .lt := by
  have ha : a < 100000 := by omega
  refine lexCmpC_lt_of_valC_lt _ _ ?_ (pad5_digits a) (pad5_digits b) ?_
  · rw [pad5_length ha, pad5_length hb]
  · rw [valC_pad5, valC_pad5]
    exact hab

theorem pad5_append_mono {a b : Nat} (hab : a < b) (hb : b < 100000)
    (x y : List Char) : lexCmpC (pad5 a ++ x) (pad5 b ++ y) = .lt := by
  have ha : a < 100000 := by omega
  exact lexCmpC_append_lt _ _ x y (by rw [pad5_length ha, pad5_length hb])
    (pad5_mono hab hb)

/-- One emitted output file of `merge_folders`: its page number at
emission (`idx`), the position of its chapter in the sorted chapter
enumeration (`chIdx`, the `index` of the source's `enumerate`), the
chapter name, whether it is the synthesized title page, and the original
page filename for copied pages (the chapter name for title pages). -/
structure OutItem where
  idx : Nat
  chIdx : Nat
  chName : List Char
  isTitle : Bool
  srcName : List Char
deriving DecidableEq

/-- The output filename of an item, mirroring the two f-strings of
`merge_folders`. -/
def OutItem.name (it : OutItem) : List Char :=
  if it.isTitle then pad5 it.idx ++ lstr "_00_" ++ it.chName ++ lstr ".png"
  else pad5 it.idx ++ lstr "_" ++ it.srcName

/-- The copied page images of one chapter (`for img in images:`), with
the running page number `k` and chapter position `ci`. -/
def pageItems (ci : Nat) (ch : List Char) : Nat → List (List Char) → List OutItem
  | _, [] => []
  | k, img :: rest => ⟨k, ci, ch, false, img⟩ :: pageItems ci ch (k + 1) rest

/-- Ordering of the chapter listing pairs by the natural key of the
directory name. -/
def chapterLe (a b : List Char × List (List Char)) : Prop := natLe a.1 b.1

instance : DecidableRel chapterLe := fun a b => by unfold chapterLe; infer_instance

/-- `sorted(os.listdir(big_folder_path), key=natural_sort_key)` applied
to the library's (chapter name, page listing) pairs. -/
def sortChapters (lib : List (List Char × List (List Char))) :
    List (List Char × List (List Char)) :=
  List.insertionSort chapterLe lib

/-- The main loop of `merge_folders` over the naturally sorted chapters:
`k` is `page_number`, `ci` the enumeration index; each chapter emits its
title item and then its naturally sorted page images. -/
def mergeGo : Nat → Nat → List (List Char × List (List Char)) → List OutItem
  | _, _, [] => []
  | k, ci, (ch, pages) :: rest =>
    let ps := sortNat pages
    ⟨k, ci, ch, true, ch⟩ ::
      (pageItems ci ch (k + 1) ps ++ mergeGo (k + 1 + ps.length) (ci + 1) rest)

/-- `merge_folders`, modelled on a library given as a list of chapters
(directory name, page-image listing), all of which are directories of
image files as in the claims' premises: page numbering starts at 1. -/
def merge_folders (lib : List (List Char × List (List Char))) : List OutItem :=
  mergeGo 1 0 (sortChapters lib)

theorem pageItems_length (ci : Nat) (ch : List Char) :
    ∀ (k : Nat) (ps : List (List Char)), (pageItems ci ch k ps).length = ps.length := by
  intro k ps
  induction ps generalizing k with
  | nil => rfl
  | cons p rest ih => simp [pageItems, ih]

theorem pageItems_map_idx (ci : Nat) (ch : List Char) :
    ∀ (k : Nat) (ps : List (List Char)),
    (pageItems ci ch k ps).map OutItem.idx = List.range' k ps.length := by
  intro k ps
  induction ps generalizing k with
  | nil => rfl
  | cons p rest ih =>
    simp only [pageItems, List.map_cons, ih (k + 1), List.length_cons]
    rw [List.range'_succ]

/-- Total number of items a chapter listing produces. -/
def totalItems : List (List Char × List (List Char)) → Nat
  | [] => 0
  | (_, pages) :: rest => 1 + pages.length + totalItems rest

theorem sortNat_length (l : List (List Char)) : (sortNat l).length = l.length :=
  (List.perm_insertionSort natLe l).length_eq

theorem mergeGo_map_idx : ∀ (chs : List (List Char × List (List Char))) (k ci : Nat),
    (mergeGo k ci chs).map OutItem.idx = List.range' k (totalItems chs) := by
  intro chs
  induction chs with
  | nil => intro k ci; rfl
  | cons c rest ih =>
    intro k ci
    rcases c with ⟨ch, pages⟩
    simp only [mergeGo, List.map_cons, List.map_append, pageItems_map_idx,
      ih (k + 1 + (sortNat pages).length) (ci + 1), totalItems]
    have happ := List.range'_append (k + 1) (sortNat pages).length
      (totalItems rest) 1
    rw [one_mul] at happ
    rw [show k + 1 + (sortNat pages).length = k + 1 + 1 * (sortNat pages).length by ring]
    rw [one_mul, happ]
    rw [show totalItems rest + (sortNat pages).length =
      (totalItems rest + (sortNat pages).length) by rfl]
    rw [show (1 : Nat) + pages.length + totalItems rest =
      (totalItems rest + (sortNat pages).length) + 1 by rw [sortNat_length]; ring]
    rw [List.range'_succ]

theorem totalItems_sortChapters (lib : List (List Char × List (List Char))) :
    totalItems (sortChapters lib) =
      lib.length + (lib.map fun c => c.2.length).sum := by
  have hperm : (sortChapters lib).Perm lib := List.perm_insertionSort chapterLe lib
  have htot : ∀ chs : List (List Char × List (List Char)),
      totalItems chs = chs.length + (chs.map fun c => c.2.length).sum := by
    intro chs
    induction chs with
    | nil => rfl
    | cons c rest ih =>
      rcases c with ⟨ch, pages⟩
      simp [totalItems, ih]
      ring
  rw [htot]
  rw [hperm.length_eq, (hperm.map fun c => c.2.length).sum_eq]

/-- Claim C1: for a library of C chapter directories with n_i page images
in chapter i, `merge_folders` emits exactly C + Σ n_i output items, and
the Page Indices along the emission pass are exactly 1, 2, ...,
C + Σ n_i: no gaps, no duplicates, assigned left to right. -/
theorem merge_folders_indices (lib : List (List Char × List (List Char))) :
    (merge_folders lib).length =
      lib.length + (lib.map fun c => c.2.length).sum ∧
    (merge_folders lib).map OutItem.idx =
      List.range' 1 (lib.length + (lib.map fun c => c.2.length).sum) := by
  have h := mergeGo_map_idx (sortChapters lib) 1 0
  rw [totalItems_sortChapters] at h
  refine ⟨?_, h⟩
  have := congrArg List.length h
  simpa using this

theorem pageItems_mem {ci : Nat} {ch : List Char} :
    ∀ {k : Nat} {ps : List (List Char)} {x : OutItem}, x ∈ pageItems ci ch k ps →
      x.chIdx = ci ∧ x.isTitle = false ∧ k + 1 ≤ x.idx + 1 ∧ k ≤ x.idx := by
  intro k ps
  induction ps generalizing k with
  | nil => intro x hx; simp [pageItems] at hx
  | cons p rest ih =>
    intro x hx
    rcases List.mem_cons.mp hx with h1 | h2
    · subst h1
      exact ⟨rfl, rfl, Nat.le_refl _, Nat.le_refl _⟩
    · obtain ⟨h3, h4, _, h5⟩ := ih h2
      exact ⟨h3, h4, by omega, by omega⟩

theorem mergeGo_mem : ∀ {chs : List (List Char × List (List Char))}
    {k ci : Nat} {x : OutItem}, x ∈ mergeGo k ci chs →
    k ≤ x.idx ∧ ci ≤ x.chIdx := by
  intro chs
  induction chs with
  | nil => intro k ci x hx; simp [mergeGo] at hx
  | cons c rest ih =>
    intro k ci x hx
    rcases c with ⟨ch, pages⟩
    simp only [mergeGo] at hx
    rcases List.mem_cons.mp hx with h1 | h2
    · have hidx : x.idx = k := by rw [h1]
      have hch : x.chIdx = ci := by rw [h1]
      omega
    · rcases List.mem_append.mp h2 with h3 | h4
      · obtain ⟨he, _, _, hk⟩ := pageItems_mem h3
        omega
      · obtain ⟨hk, hc⟩ := ih h4
        omega

theorem mergeGo_title_lt : ∀ (chs : List (List Char × List (List Char)))
    (k ci : Nat) (t p : OutItem), t ∈ mergeGo k ci chs → p ∈ mergeGo k ci chs →
    t.isTitle = true →
    ((t.chIdx = p.chIdx ∧ p.isTitle = false) ∨ t.chIdx < p.chIdx) →
    t.idx < p.idx := by
  intro chs
  induction chs with
  | nil => intro k ci t p ht _ _ _; simp [mergeGo] at ht
  | cons c rest ih =>
    intro k ci t p ht hp htt hrel
    rcases c with ⟨ch, pages⟩
    simp only [mergeGo] at ht hp
    rcases List.mem_cons.mp ht with ht1 | ht2
    · have htidx : t.idx = k := by rw [ht1]
      have htch : t.chIdx = ci := by rw [ht1]
      rcases List.mem_cons.mp hp with hp1 | hp2
      · have hpch : p.chIdx = ci := by rw [hp1]
        have hpt : p.isTitle = true := by rw [hp1]
        rcases hrel with ⟨_, hf⟩ | hlt
        · rw [hpt] at hf
          exact absurd hf (by simp)
        · omega
      · rcases List.mem_append.mp hp2 with hp3 | hp4
        · obtain ⟨_, _, _, hk⟩ := pageItems_mem hp3
          omega
        · obtain ⟨hk, _⟩ := mergeGo_mem hp4
          omega
    · rcases List.mem_append.mp ht2 with ht3 | ht4
      · obtain ⟨_, hf, _, _⟩ := pageItems_mem ht3
        rw [htt] at hf
        exact absurd hf (by simp)
      · obtain ⟨htk, htc⟩ := mergeGo_mem ht4
        rcases List.mem_cons.mp hp with hp1 | hp2
        · have hpch : p.chIdx = ci := by rw [hp1]
          have hpt : p.isTitle = true := by rw [hp1]
          rcases hrel with ⟨heq, hf⟩ | hlt
          · rw [hpt] at hf
            exact absurd hf (by simp)
          · omega
        · rcases List.mem_append.mp hp2 with hp3 | hp4
          · obtain ⟨he, _, _, _⟩ := pageItems_mem hp3
            rcases hrel with ⟨heq, _⟩ | hlt <;> omega
          · exact ih _ _ t p ht4 hp4 htt hrel

/-- Claim C2: in the output of `merge_folders`, every chapter's title
item has a Page Index strictly below every page image of its own chapter
and below every item of every later chapter (chapters taken in
natural-sort order, `chIdx` being the position in that order). -/
theorem merge_folders_title_first (lib : List (List Char × List (List Char)))
    (t p : OutItem) (ht : t ∈ merge_folders lib) (hp : p ∈ merge_folders lib)
    (htt : t.isTitle = true)
    (hrel : (t.chIdx = p.chIdx ∧ p.isTitle = false) ∨ t.chIdx < p.chIdx) :
    t.idx < p.idx :=
  mergeGo_title_lt _ 1 0 t p ht hp htt hrel

/-- Witness for C2 on the concrete library [("A", ["p1"]), ("B", [])]:
the title of "A" (index 1) precedes the page of "A" (index 2) and the
title of "B" (index 3). -/
theorem merge_folders_title_first_witness :
    (⟨1, 0, lstr "A", true, lstr "A"⟩ : OutItem).idx <
      (⟨3, 1, lstr "B", true, lstr "B"⟩ : OutItem).idx :=
  merge_folders_title_first [(lstr "A", [lstr "p1"]), (lstr "B", [])]
    ⟨1, 0, lstr "A", true, lstr "A"⟩ ⟨3, 1, lstr "B", true, lstr "B"⟩
    (by decide) (by decide) (by decide) (by decide)

theorem OutItem_name_shape (x : OutItem) : ∃ r, x.name = pad5 x.idx ++ r := by
  unfold OutItem.name
  by_cases h : x.isTitle = true
  · rw [if_pos h]
    exact ⟨lstr "_00_" ++ x.chName ++ lstr ".png", by simp [List.append_assoc]⟩
  · rw [if_neg h]
    exact ⟨lstr "_" ++ x.srcName, by simp [List.append_assoc]⟩

/-- Claim C7 (amended): every output filename is the item's Page Index
zero-padded to at least five digits, followed for title items by the
marker and chapter name plus ".png" and for copied items by the original
filename; for every merged sequence of at most 99999 items the
lexicographic order of the output filenames coincides exactly with Page
Index order. -/
theorem merge_folders_names (lib : List (List Char × List (List Char))) :
    (∀ it ∈ merge_folders lib,
      it.name = if it.isTitle
        then pad5 it.idx ++ lstr "_00_" ++ it.chName ++ lstr ".png"
        else pad5 it.idx ++ lstr "_" ++ it.srcName) ∧
    (lib.length + (lib.map fun c => c.2.length).sum ≤ 99999 →
      List.Pairwise (fun a b => lexCmpC a.name b.name = Ordering.lt)
        (merge_folders lib)) := by
  obtain ⟨hlen, hmap⟩ := merge_folders_indices lib
  constructor
  · intro it _
    rfl
  · intro hN
    rw [List.pairwise_iff_getElem]
    intro i j hi hj hij
    have hidx : ∀ (m : Nat) (hm : m < (merge_folders lib).length),
        ((merge_folders lib).get ⟨m, hm⟩).idx = 1 + m := by
      intro m hm
      have hm' : m < ((merge_folders lib).map OutItem.idx).length := by
        simpa using hm
      have e1 : ((merge_folders lib).map OutItem.idx)[m] =
          ((merge_folders lib)[m]).idx := List.getElem_map _
      have e2 := List.getElem_of_eq hmap hm'
      rw [e1] at e2
      rw [List.get_eq_getElem, e2, List.getElem_range'_1]
    obtain ⟨ra, ha⟩ := OutItem_name_shape ((merge_folders lib).get ⟨i, hi⟩)
    obtain ⟨rb, hb⟩ := OutItem_name_shape ((merge_folders lib).get ⟨j, hj⟩)
    rw [hidx i hi] at ha
    rw [hidx j hj] at hb
    rw [List.get_eq_getElem] at ha hb
    rw [ha, hb]
    have hjN : 1 + j ≤ lib.length + (lib.map fun c => c.2.length).sum := by
      rw [hlen] at hj
      omega
    exact pad5_append_mono (by omega) (by omega) _ _

/-- Witness for the amended C7 on a small concrete library. -/
theorem merge_folders_names_witness :
    List.Pairwise (fun a b => lexCmpC a.name b.name = Ordering.lt)
      (merge_folders [(lstr "A", [lstr "p1"])]) :=
  (merge_folders_names [(lstr "A", [lstr "p1"])]).2 (by decide)

theorem decReprAux_fuel_pow : ∀ (f1 f2 n : Nat), n < 10 ^ f1 → n < 10 ^ f2 →
    0 < f1 → 0 < f2 → decReprAux f1 n = decReprAux f2 n := by
  intro f1
  induction f1 with
  | zero => intro f2 n _ _ h _; omega
  | succ f1 ih =>
    intro f2 n h1 h2 _ hf2
    cases f2 with
    | zero => omega
    | succ f2 =>
      by_cases hn : n < 10
      · simp [decReprAux, hn]
      · have hs1 : 0 < f1 := by
          by_contra hc
          have hz : f1 = 0 := by omega
          subst hz
          simp at h1
          omega
        have hs2 : 0 < f2 := by
          by_contra hc
          have hz : f2 = 0 := by omega
          subst hz
          simp at h2
          omega
        have hd1 : n / 10 < 10 ^ f1 := by
          rw [Nat.div_lt_iff_lt_mul (by omega : 0 < 10)]
          calc n < 10 ^ (f1 + 1) := h1
            _ = 10 ^ f1 * 10 := by ring
        have hd2 : n / 10 < 10 ^ f2 := by
          rw [Nat.div_lt_iff_lt_mul (by omega : 0 < 10)]
          calc n < 10 ^ (f2 + 1) := h2
            _ = 10 ^ f2 * 10 := by ring
        simp only [decReprAux, hn, if_false]
        rw [ih f2 (n / 10) hd1 hd2 hs1 hs2]

theorem decRepr_eval {n f : Nat} (h : n < 10 ^ f) (hf : 0 < f) :
    decRepr n = decReprAux f n := by
  have h1 : n < 10 ^ (n + 1) := by
    calc n < 2 ^ (n + 1) := by
          have ha := Nat.lt_two_pow n
          have hb : (2 : Nat) ^ n ≤ 2 ^ (n + 1) :=
            Nat.pow_le_pow_right (by omega) (by omega)
          omega
      _ ≤ 10 ^ (n + 1) := Nat.pow_le_pow_left (by omega) _
  exact decReprAux_fuel_pow (n + 1) f n h1 h (by omega) hf

/-- Page filenames of the C7 counterexample library: "p0", "p1", ... -/
def cexF (n : Nat) : List Char := lstr "p" ++ decRepr n

/-- 99999 page images in one chapter; with the title page the merged
sequence has 100000 items. -/
def cexPages : List (List Char) := (List.range 99999).map cexF

def cexLib : List (List Char × List (List Char)) := [(lstr "C", cexPages)]

theorem natural_sort_key_cexF (n : Nat) :
    natural_sort_key (cexF n) = [.str (lstr "p"), .int n, .str []] := by
  have hds := decRepr_ne_nil n
  have hdd := decRepr_digits n
  have hsp : splitDigits (cexF n) = [lstr "p", decRepr n, []] := by
    unfold cexF
    cases hd : decRepr n with
    | nil => exact absurd hd hds
    | cons d rest =>
      rw [hd] at hdd
      have hdig : isDigitCh d = true := hdd d (List.mem_cons_self d rest)
      have hrest : ∀ c ∈ rest, isDigitCh c = true :=
        fun c hc => hdd c (List.mem_cons_of_mem d hc)
      show sdAux ('p' :: d :: rest) [] false = [['p'], d :: rest, []]
      have hp : isDigitCh 'p' = false := rfl
      simp only [sdAux, hp, Bool.false_eq_true, if_false, hdig, if_true]
      rw [sdAux_all_digit rest [d] hrest]
      rfl
  have h1 : tokOf (lstr "p") = .str (lstr "p") := by decide
  have h2 : tokOf (decRepr n) = .int n := by
    unfold tokOf
    rw [if_pos (pyIsDigit_true_of_all hds hdd), valC_decRepr]
  have h3 : tokOf ([] : List Char) = .str [] := rfl
  unfold natural_sort_key
  rw [hsp]
  simp [h1, h2, h3]

theorem natLe_cexF {a b : Nat} (hab : a < b) : natLe (cexF a) (cexF b) := by
  unfold natLe
  rw [natural_sort_key_cexF a, natural_sort_key_cexF b]
  have he : lexCmpC (lstr "p") (lstr "p") = .eq := by decide
  have hc : compare a b = Ordering.lt := Nat.compare_eq_lt.mpr hab
  simp [keyCmp, tokCmp, he, hc]

theorem cexPages_sorted : sortNat cexPages = cexPages := by
  apply List.Sorted.insertionSort_eq
  show List.Pairwise natLe ((List.range 99999).map cexF)
  rw [List.pairwise_map]
  exact (List.pairwise_lt_range 99999).imp (fun hab => natLe_cexF hab)

theorem pageItems_append (ci : Nat) (ch : List Char) :
    ∀ (l1 l2 : List (List Char)) (k : Nat),
    pageItems ci ch k (l1 ++ l2) =
      pageItems ci ch k l1 ++ pageItems ci ch (k + l1.length) l2 := by
  intro l1
  induction l1 with
  | nil => intro l2 k; simp [pageItems]
  | cons p rest ih =>
    intro l2 k
    simp only [List.cons_append, pageItems, List.length_cons, List.append_eq]
    rw [ih l2 (k + 1)]
    rw [show k + (rest.length + 1) = k + 1 + rest.length by omega]

theorem merge_folders_cex_form :
    merge_folders cexLib =
      (⟨1, 0, lstr "C", true, lstr "C"⟩ : OutItem) ::
        (pageItems 0 (lstr "C") 2 ((List.range 99997).map cexF) ++
          [⟨99999, 0, lstr "C", false, cexF 99997⟩,
           ⟨100000, 0, lstr "C", false, cexF 99998⟩]) := by
  have hsc : sortChapters cexLib = cexLib := rfl
  unfold merge_folders
  rw [hsc]
  show mergeGo 1 0 [(lstr "C", cexPages)] = _
  simp only [mergeGo]
  rw [cexPages_sorted]
  have hdec : cexPages = ((List.range 99997).map cexF) ++ [cexF 99997, cexF 99998] := by
    unfold cexPages
    rw [show (99999 : Nat) = 99998 + 1 from rfl, List.range_succ,
        show (99998 : Nat) = 99997 + 1 from rfl, List.range_succ]
    simp [List.map_append, List.append_assoc]
  rw [hdec, pageItems_append]
  simp only [mergeGo, List.append_nil, List.length_map, List.length_range]
  rw [show (1 + 1 : Nat) = 2 from rfl]
  rw [show (2 + 99997 : Nat) = 99999 from rfl]
  rfl

theorem cex_nameA :
    (⟨99999, 0, lstr "C", false, cexF 99997⟩ : OutItem).name = lstr "99999_p99997" := by
  have e1 : decRepr 99999 = decReprAux 5 99999 :=
    decRepr_eval (by norm_num) (by norm_num)
  have e2 : decRepr 99997 = decReprAux 5 99997 :=
    decRepr_eval (by norm_num) (by norm_num)
  simp only [OutItem.name, cexF, pad5, e1, e2]
  decide

theorem cex_nameB :
    (⟨100000, 0, lstr "C", false, cexF 99998⟩ : OutItem).name = lstr "100000_p99998" := by
  have e1 : decRepr 100000 = decReprAux 6 100000 :=
    decRepr_eval (by norm_num) (by norm_num)
  have e2 : decRepr 99998 = decReprAux 5 99998 :=
    decRepr_eval (by norm_num) (by norm_num)
  simp only [OutItem.name, cexF, pad5, e1, e2]
  decide

/-- Counterexample for C7 as stated: in a library with one chapter of
99999 page images the items with Page Index 99999 and 100000 get output
filenames "99999_p99997" and "100000_p99998", and the latter sorts
lexicographically before the former, so lexicographic filename order
does not reproduce Page Index order for every merged sequence. -/
theorem merge_folders_lex_cex :
    ¬ ∀ lib : List (List Char × List (List Char)),
        List.Pairwise (fun a b => lexCmpC a.name b.name = Ordering.lt)
          (merge_folders lib) := by
  intro hall
  have h := hall cexLib
  rw [merge_folders_cex_form] at h
  have h2 := (List.pairwise_cons.mp h).2
  have h3 := (List.pairwise_append.mp h2).2.1
  have h4 := (List.pairwise_cons.mp h3).1 _ (List.mem_cons_self _ _)
  rw [cex_nameA, cex_nameB] at h4
  exact absurd h4 (by decide)

/-- Python whitespace (ASCII), as recognised by `str.split()`. -/
def isWsCh (c : Char) : Bool :=
  c = ' ' || c = '\t' || c = '\n' || c = '\r' || c.toNat = 11 || c.toNat = 12

/-- Accumulator pass of Python `str.split()`: gather maximal runs of
non-whitespace characters, dropping all whitespace. -/
def splitWsAux : List Char → List Char → List (List Char)
  | [], acc => if acc.isEmpty then [] else [acc.reverse]
  | c :: cs, acc =>
    if isWsCh c then
      if acc.isEmpty then splitWsAux cs []
      else acc.reverse :: splitWsAux cs []
    else splitWsAux cs (c :: acc)

/-- `text.split()`: split on whitespace runs, producing no empty words. -/
def pySplit (text : List Char) : List (List Char) := splitWsAux text []

/-- One step of the wrapping loop: keep the tentative line when its
measured width stays within the limit, otherwise close the current line
and start a new one with the word. -/
def wrapStep (measure : List Char → Nat) (maxW : Nat)
    (st : List (List Char) × List Char) (word : List Char) :
    List (List Char) × List Char :=
  if measure (st.2 ++ [' '] ++ word) ≤ maxW then (st.1, st.2 ++ [' '] ++ word)
  else (st.1 ++ [st.2], word)

/-- The `for word in words[1:]` loop of `wrap_text`: `cur` is
`current_line`, and the final `current_line` is always appended. -/
def wrapLoop (measure : List Char → Nat) (maxW : Nat) :
    List Char → List (List Char) → List (List Char)
  | cur, [] => [cur]
  | cur, w :: ws =>
    if measure (cur ++ [' '] ++ w) ≤ maxW
    then wrapLoop measure maxW (cur ++ [' '] ++ w) ws
    else cur :: wrapLoop measure maxW w ws

/-- `wrap_text(text, draw, font, max_width)` from the source; the width
measurement `draw.textbbox(...)[2]` is abstracted as `measure`.  An
empty word list makes `words[0]` raise `IndexError` in Python, modelled
by `none`. -/
def wrap_text (text : List Char) (measure : List Char → Nat) (maxW : Nat) :
    Option (List (List Char)) :=
  match pySplit text with
  | [] => none
  | w :: ws => some (wrapLoop measure maxW w ws)

/-- The wrapping procedure as the specification words it: the first word
starts the first line; each subsequent word is tentatively appended
(space-separated) and kept exactly when the measured width of the
extended line is at most the maximum width, otherwise the current line
is closed and the word starts a new line; the final line is always
appended. -/
def wrapSpec (words : List (List Char)) (measure : List Char → Nat)
    (maxW : Nat) : List (List Char) :=
  match words with
  | [] => []
  | w :: rest =>
    ((rest.foldl (wrapStep measure maxW) ([], w)).1) ++
      [(rest.foldl (wrapStep measure maxW) ([], w)).2]

theorem wrapLoop_foldl (measure : List Char → Nat) (maxW : Nat) :
    ∀ (ws : List (List Char)) (acc : List (List Char)) (cur : List Char),
    acc ++ wrapLoop measure maxW cur ws =
      (ws.foldl (wrapStep measure maxW) (acc, cur)).1 ++
        [(ws.foldl (wrapStep measure maxW) (acc, cur)).2] := by
  intro ws
  induction ws with
  | nil => intro acc cur; rfl
  | cons w ws ih =>
    intro acc cur
    simp only [wrapLoop, List.foldl_cons]
    by_cases h : measure (cur ++ [' '] ++ w) ≤ maxW
    · rw [if_pos h]
      have hstep : wrapStep measure maxW (acc, cur) w = (acc, cur ++ [' '] ++ w) := by
        unfold wrapStep
        rw [if_pos h]
      rw [hstep]
      exact ih acc (cur ++ [' '] ++ w)
    · rw [if_neg h]
      have hstep : wrapStep measure maxW (acc, cur) w = (acc ++ [cur], w) := by
        unfold wrapStep
        rw [if_neg h]
      rw [hstep]
      rw [show acc ++ (cur :: wrapLoop measure maxW w ws) =
        (acc ++ [cur]) ++ wrapLoop measure maxW w ws by simp]
      exact ih (acc ++ [cur]) w

/-- Claim C4: on a caption with at least one whitespace-separated word,
`wrap_text` performs exactly the greedy wrapping the specification
describes, and a one-word caption yields exactly one line equal to that
word. -/
theorem wrap_text_spec (measure : List Char → Nat) (maxW : Nat)
    (text : List Char) (h : pySplit text ≠ []) :
    wrap_text text measure maxW =
      some (wrapSpec (pySplit text) measure maxW) ∧
    (∀ w, pySplit text = [w] → wrap_text text measure maxW = some [w]) := by
  constructor
  · cases hs : pySplit text with
    | nil => exact absurd hs h
    | cons w ws =>
      unfold wrap_text wrapSpec
      rw [hs]
      have hfold := wrapLoop_foldl measure maxW ws [] w
      rw [List.nil_append] at hfold
      show some (wrapLoop measure maxW w ws) =
        some ((ws.foldl (wrapStep measure maxW) ([], w)).1 ++
          [(ws.foldl (wrapStep measure maxW) ([], w)).2])
      rw [hfold]
  · intro w hw
    unfold wrap_text
    rw [hw]
    rfl

/-- Witness for C4: a concrete two-word caption with `measure` the
character count, and a concrete one-word caption. -/
theorem wrap_text_spec_witness :
    wrap_text (lstr "ab cd") List.length 5 =
      some (wrapSpec (pySplit (lstr "ab cd")) List.length 5) ∧
    wrap_text (lstr "hello") List.length 3 = some [lstr "hello"] :=
  ⟨(wrap_text_spec List.length 5 (lstr "ab cd") (by decide)).1,
   (wrap_text_spec List.length 3 (lstr "hello") (by decide)).2
     (lstr "hello") (by decide)⟩

theorem splitWsAux_tokens : ∀ (cs acc : List Char),
    (∀ c ∈ acc, isWsCh c = false) →
    ∀ t ∈ splitWsAux cs acc, t ≠ [] ∧ ∀ c ∈ t, isWsCh c = false := by
  intro cs
  induction cs with
  | nil =>
    intro acc hacc t ht
    by_cases he : acc.isEmpty
    · simp [splitWsAux, he] at ht
    · simp only [splitWsAux, he, Bool.false_eq_true, if_false] at ht
      rcases List.mem_singleton.mp ht with rfl
      refine ⟨by simpa [List.isEmpty_iff] using he, ?_⟩
      intro c hc
      exact hacc c (List.mem_reverse.mp hc)
  | cons c cs ih =>
    intro acc hacc t ht
    by_cases hw : isWsCh c = true
    · by_cases he : acc.isEmpty
      · simp only [splitWsAux, hw, if_true, he] at ht
        exact ih [] (by simp) t ht
      · simp only [splitWsAux, hw, if_true, he, Bool.false_eq_true, if_false] at ht
        rcases List.mem_cons.mp ht with rfl | hmem
        · refine ⟨by simpa [List.isEmpty_iff] using he, ?_⟩
          intro x hx
          exact hacc x (List.mem_reverse.mp hx)
        · exact ih [] (by simp) t hmem
    · simp only [splitWsAux, hw, Bool.false_eq_true, if_false] at ht
      refine ih (c :: acc) ?_ t ht
      intro x hx
      rcases List.mem_cons.mp hx with rfl | hmem
      · simpa using hw
      · exact hacc x hmem

/-- Every word produced by `str.split()` is nonempty and contains no
whitespace. -/
theorem pySplit_tokens (text : List Char) :
    ∀ t ∈ pySplit text, t ≠ [] ∧ ∀ c ∈ t, isWsCh c = false :=
  splitWsAux_tokens text [] (by simp)

theorem splitWsAux_run : ∀ (run l acc : List Char),
    (∀ c ∈ run, isWsCh c = false) →
    splitWsAux (run ++ l) acc = splitWsAux l (run.reverse ++ acc) := by
  intro run
  induction run with
  | nil => intro l acc _; simp
  | cons c cs ih =>
    intro l acc h
    have hc := h c (List.mem_cons_self c cs)
    show splitWsAux (c :: (cs ++ l)) acc = _
    simp only [splitWsAux, hc, Bool.false_eq_true, if_false]
    rw [ih l (c :: acc) (fun x hx => h x (List.mem_cons_of_mem c hx))]
    simp [List.reverse_cons, List.append_assoc]

theorem intercalate_cons_cons (x y : List Char) (l : List (List Char)) :
    List.intercalate [' '] (x :: y :: l) =
      x ++ ' ' :: List.intercalate [' '] (y :: l) := by
  simp [List.intercalate, List.intersperse]

theorem intercalate_singleton_ch (x : List Char) :
    List.intercalate [' '] [x] = x := by
  simp [List.intercalate, List.intersperse]

theorem wrapLoop_ne_nil (measure : List Char → Nat) (maxW : Nat) :
    ∀ (ws : List (List Char)) (cur : List Char),
    wrapLoop measure maxW cur ws ≠ [] := by
  intro ws
  induction ws with
  | nil => intro cur; simp [wrapLoop]
  | cons w ws ih =>
    intro cur
    unfold wrapLoop
    by_cases h : measure (cur ++ [' '] ++ w) ≤ maxW
    · rw [if_pos h]
      exact ih (cur ++ [' '] ++ w)
    · rw [if_neg h]
      simp

theorem wrapLoop_join (measure : List Char → Nat) (maxW : Nat) :
    ∀ (ws : List (List Char)) (cur : List Char),
    List.intercalate [' '] (wrapLoop measure maxW cur ws) =
      List.intercalate [' '] (cur :: ws) := by
  intro ws
  induction ws with
  | nil => intro cur; rfl
  | cons w ws ih =>
    intro cur
    unfold wrapLoop
    by_cases h : measure (cur ++ [' '] ++ w) ≤ maxW
    · rw [if_pos h, ih (cur ++ [' '] ++ w)]
      cases ws with
      | nil =>
        rw [intercalate_singleton_ch, intercalate_cons_cons,
          intercalate_singleton_ch]
        simp
      | cons w2 ws2 =>
        rw [intercalate_cons_cons, intercalate_cons_cons,
          intercalate_cons_cons]
        simp
    · rw [if_neg h]
      have hi := ih w
      cases hW : wrapLoop measure maxW w ws with
      | nil => exact absurd hW (wrapLoop_ne_nil measure maxW ws w)
      | cons a l =>
        rw [hW] at hi
        rw [intercalate_cons_cons, hi, ← intercalate_cons_cons]

theorem splitWs_join : ∀ (tokens : List (List Char)),
    (∀ t ∈ tokens, t ≠ [] ∧ ∀ c ∈ t, isWsCh c = false) →
    pySplit (List.intercalate [' '] tokens) = tokens := by
  intro tokens
  induction tokens with
  | nil => intro _; rfl
  | cons t rest ih =>
    intro h
    obtain ⟨hne, hws⟩ := h t (List.mem_cons_self t rest)
    cases rest with
    | nil =>
      rw [intercalate_singleton_ch]
      show splitWsAux t [] = [t]
      have := splitWsAux_run t [] [] hws
      rw [List.append_nil] at this
      rw [this]
      have hne' : t.reverse.isEmpty = false := by
        simp [List.isEmpty_iff]
        exact hne
      simp [splitWsAux, hne']
    | cons t2 rest2 =>
      rw [intercalate_cons_cons]
      show splitWsAux (t ++ ' ' :: List.intercalate [' '] (t2 :: rest2)) [] = _
      rw [splitWsAux_run t _ [] hws, List.append_nil]
      have hne' : t.reverse.isEmpty = false := by
        simp [List.isEmpty_iff]
        exact hne
      have hsp : isWsCh ' ' = true := rfl
      simp only [splitWsAux, hsp, if_true, hne', Bool.false_eq_true, if_false]
      rw [List.reverse_reverse]
      have hrest : splitWsAux (List.intercalate [' '] (t2 :: rest2)) [] =
          t2 :: rest2 := ih (fun x hx => h x (List.mem_cons_of_mem t hx))
      rw [hrest]

/-- Claim C10: `wrap_text` loses, duplicates and reorders no words:
joining the returned lines with single spaces and splitting the result
on whitespace yields exactly the whitespace-split word sequence of the
original caption. -/
theorem wrap_text_words (measure : List Char → Nat) (maxW : Nat)
    (text : List Char) (lines : List (List Char))
    (h : wrap_text text measure maxW = some lines) :
    pySplit (List.intercalate [' '] lines) = pySplit text := by
  unfold wrap_text at h
  cases hs : pySplit text with
  | nil =>
    rw [hs] at h
    exact absurd h (by simp)
  | cons w ws =>
    rw [hs] at h
    have h' : some (wrapLoop measure maxW w ws) = some lines := h
    injection h' with h''
    subst h''
    rw [wrapLoop_join measure maxW ws w]
    exact splitWs_join (w :: ws) (hs ▸ pySplit_tokens text)

/-- Witness for C10 at a concrete caption (whose double space collapses)
and the character-count measure. -/
theorem wrap_text_words_witness :
    pySplit (List.intercalate [' '] [lstr "ab", lstr "cd"]) =
      pySplit (lstr "ab  cd") :=
  wrap_text_words List.length 2 (lstr "ab  cd") [lstr "ab", lstr "cd"]
    (by decide)

/-- The relative archive path of a file: `os.path.relpath` applied to
the joined path; `dir` is the walked folder's path relative to the
output root, `[]` for the root itself. -/
def relName (dir fn : List Char) : List Char :=
  if dir = [] then fn else dir ++ '/' :: fn

/-- `create_cbz`: walk the output directory (`walk` lists, per visited
folder in `os.walk` order, its path relative to the output root and its
file listing; `content` gives the on-disk bytes of a file of a folder)
and write every file, naturally sorted within its folder, into the
archive under its relative path. -/
def create_cbz {β : Type} (walk : List (List Char × List (List Char)))
    (content : List Char → List Char → β) : List (List Char × β) :=
  walk.flatMap fun folder =>
    (sortNat folder.2).map fun fn => (relName folder.1 fn, content folder.1 fn)

/-- Claim C5: the archive's entry list is a permutation of the files
under the output directory - every file appears exactly once, with its
content and its path relative to the output root - and on the flat
directory layout the merge produces, the entries are written in
natural-sort order of their filenames. -/
theorem create_cbz_spec :
    (∀ (β : Type) (walk : List (List Char × List (List Char)))
      (content : List Char → List Char → β),
      (create_cbz walk content).Perm
        (walk.flatMap fun folder =>
          folder.2.map fun fn => (relName folder.1 fn, content folder.1 fn))) ∧
    (∀ (β : Type) (files : List (List Char))
      (content : List Char → List Char → β),
      (create_cbz [([], files)] content).Perm
        (files.map fun fn => (fn, content [] fn)) ∧
      List.Pairwise (fun a b => natLe a.1 b.1) (create_cbz [([], files)] content)) := by
  have hflat : ∀ (β : Type) (files : List (List Char))
      (content : List Char → List Char → β),
      create_cbz [([], files)] content =
        (sortNat files).map fun fn => (fn, content [] fn) := by
    intro β files content
    simp [create_cbz, relName]
  constructor
  · intro β walk content
    induction walk with
    | nil => simp [create_cbz]
    | cons f rest ih =>
      simp only [create_cbz, List.flatMap_cons]
      exact List.Perm.append
        (((List.perm_insertionSort natLe f.2)).map _) ih
  · intro β files content
    rw [hflat]
    constructor
    · exact (List.perm_insertionSort natLe files).map _
    · rw [List.pairwise_map]
      exact List.sorted_insertionSort natLe files

/-- Command-line arguments of the tool. -/
structure Args where
  font_size : Nat
  file_name : Option (List Char)
  test_image : Option (List Char)

/-- The environment a run observes: the entered source path, whether it
exists, whether the output directory already exists, the basename of the
normalized source path (an OS call, out of scope per the spec), the
script directory, and the source library's listing. -/
structure Env where
  inputPath : List Char
  pathExists : Bool
  outDirExists : Bool
  defaultName : List Char
  scriptDir : List Char
  library : List (List Char × List (List Char))

/-- Observable effects of a run. -/
inductive Effect where
  | printMsg (s : List Char) : Effect
  | showPreview (caption : List Char) : Effect
  | makeDirs (dir : List Char) : Effect
  | saveImage (path : List Char) : Effect
  | copyFile (src dst : List Char) : Effect
  | writeArchive (path : List Char) : Effect
  | progress (done total : Nat) : Effect
deriving DecidableEq

/-- `os.path.join` for the two-component joins the tool performs. -/
def pjoin (a b : List Char) : List Char :=
  if a = [] then b else a ++ '/' :: b

/-- Effects of copying one chapter's page images. -/
def copyEffects (inDir outDir : List Char) : Nat → List (List Char) → List Effect
  | _, [] => []
  | k, img :: rest =>
    .copyFile (pjoin inDir img) (pjoin outDir (pad5 k ++ lstr "_" ++ img)) ::
      copyEffects inDir outDir (k + 1) rest

/-- Effects of the chapter loop of `merge_folders`, including the
per-chapter progress report. -/
def mergeGoEffects (srcRoot outDir : List Char) (total : Nat) :
    Nat → Nat → List (List Char × List (List Char)) → List Effect
  | _, _, [] => []
  | k, i, (ch, pages) :: rest =>
    let ps := sortNat pages
    .saveImage (pjoin outDir (pad5 k ++ lstr "_00_" ++ ch ++ lstr ".png")) ::
      (copyEffects (pjoin srcRoot ch) outDir (k + 1) ps ++
        (.progress (i + 1) total ::
          mergeGoEffects srcRoot outDir total (k + 1 + ps.length) (i + 1) rest))

/-- Effects of `merge_folders(big_folder_path, output_folder, ...)`:
create the output directory when absent, then process the chapters. -/
def merge_folders_effects (env : Env) (outDir : List Char) : List Effect :=
  (if env.outDirExists then [] else [.makeDirs outDir]) ++
    mergeGoEffects env.inputPath outDir (sortChapters env.library).length 1 0
      (sortChapters env.library)

/-- The CBZ filename: the custom flag verbatim when given, otherwise the
default name with ".cbz" appended. -/
def cbzFileNameOf (fileName : Option (List Char)) (defaultName : List Char) :
    List Char :=
  match fileName with
  | some fn => fn
  | none => defaultName ++ lstr ".cbz"

/-- The output directory name, always derived from the default name
(the source folder's basename), independently of the custom flag. -/
def outputFolderNameOf (defaultName : List Char) : List Char :=
  defaultName ++ lstr "_merged_comic"

/-- `main()`: preview branch, source-existence check, name derivation,
merge, packaging and final prints; returns the run's observable effects
plus the process exit status, which is 0 on every path (a plain
`return` does not raise a nonzero status).  Terminal escape sequences in
the final prints are omitted as display formatting. -/
def main_run (args : Args) (env : Env) : List Effect × Nat :=
  match args.test_image with
  | some cap =>
    ([.printMsg (lstr "Previewing image for text: " ++ cap),
      .showPreview cap], 0)
  | none =>
    if env.pathExists = false then
      ([.printMsg (lstr "Error: Folder " ++ env.inputPath ++
        lstr " does not exist.")], 0)
    else
      let outputFolder := pjoin env.scriptDir (outputFolderNameOf env.defaultName)
      let cbzFile := pjoin env.scriptDir (cbzFileNameOf args.file_name env.defaultName)
      (merge_folders_effects env outputFolder ++
        (.writeArchive cbzFile ::
          [.printMsg (lstr "CBZ file created at: " ++ cbzFile),
           .printMsg (lstr "Merged folder created at: " ++ outputFolder)]), 0)

/-- Does an effect modify the filesystem? -/
def Effect.isFsWrite : Effect → Bool
  | .makeDirs _ => true
  | .saveImage _ => true
  | .copyFile _ _ => true
  | .writeArchive _ => true
  | _ => false

/-- Claim C6: when the entered source library path does not exist and
preview mode is off, the run prints the error and returns with exit
status 0 before any side effect: no directory is created, no file is
written, no archive is produced. -/
theorem main_missing_source (args : Args) (env : Env)
    (hti : args.test_image = none) (hex : env.pathExists = false) :
    main_run args env =
      ([.printMsg (lstr "Error: Folder " ++ env.inputPath ++
        lstr " does not exist.")], 0) ∧
    (∀ e ∈ (main_run args env).1, e.isFsWrite = false) := by
  have hm : main_run args env =
      ([.printMsg (lstr "Error: Folder " ++ env.inputPath ++
        lstr " does not exist.")], 0) := by
    unfold main_run
    rw [hti]
    show (if env.pathExists = false then _ else _) = _
    rw [if_pos hex]
  refine ⟨hm, ?_⟩
  rw [hm]
  intro e he
  rcases List.mem_singleton.mp he with rfl
  rfl

/-- Witness for C6 at a concrete argument vector and environment. -/
theorem main_missing_source_witness :
    main_run ⟨50, none, none⟩
        ⟨lstr "/lib", false, false, lstr "lib", lstr "/s", []⟩ =
      ([.printMsg (lstr "Error: Folder " ++ lstr "/lib" ++
        lstr " does not exist.")], 0) :=
  (main_missing_source ⟨50, none, none⟩
    ⟨lstr "/lib", false, false, lstr "lib", lstr "/s", []⟩ rfl rfl).1

theorem main_run_exists_form (args : Args) (env : Env)
    (hti : args.test_image = none) (hex : env.pathExists = true) :
    main_run args env =
      (merge_folders_effects env
          (pjoin env.scriptDir (outputFolderNameOf env.defaultName)) ++
        (.writeArchive
            (pjoin env.scriptDir (cbzFileNameOf args.file_name env.defaultName)) ::
          [.printMsg (lstr "CBZ file created at: " ++
            pjoin env.scriptDir (cbzFileNameOf args.file_name env.defaultName)),
           .printMsg (lstr "Merged folder created at: " ++
            pjoin env.scriptDir (outputFolderNameOf env.defaultName))]), 0) := by
  unfold main_run
  rw [hti]
  show (if env.pathExists = false then _ else _) = _
  rw [if_neg (by rw [hex]; simp)]

/-- Claim C8 (amended): when the custom archive-name flag is supplied it
is used verbatim as the archive filename, while the output directory
name is always derived from the source folder's basename as
basename plus "_merged_comic"; without the flag the archive name
defaults to basename plus ".cbz". -/
theorem main_names (args : Args) (env : Env)
    (hti : args.test_image = none) (hex : env.pathExists = true) :
    (∀ fn, args.file_name = some fn →
      Effect.writeArchive (pjoin env.scriptDir fn) ∈ (main_run args env).1) ∧
    (args.file_name = none →
      Effect.writeArchive (pjoin env.scriptDir (env.defaultName ++ lstr ".cbz"))
        ∈ (main_run args env).1) ∧
    (env.outDirExists = false →
      Effect.makeDirs
        (pjoin env.scriptDir (env.defaultName ++ lstr "_merged_comic"))
        ∈ (main_run args env).1) := by
  have hform := main_run_exists_form args env hti hex
  refine ⟨?_, ?_, ?_⟩
  · intro fn hfn
    rw [hform]
    refine List.mem_append.mpr (Or.inr ?_)
    rw [show cbzFileNameOf args.file_name env.defaultName = fn by rw [hfn]; rfl]
    exact List.mem_cons_self _ _
  · intro hfn
    rw [hform]
    refine List.mem_append.mpr (Or.inr ?_)
    rw [show cbzFileNameOf args.file_name env.defaultName =
      env.defaultName ++ lstr ".cbz" by rw [hfn]; rfl]
    exact List.mem_cons_self _ _
  · intro hout
    rw [hform]
    refine List.mem_append.mpr (Or.inl ?_)
    unfold merge_folders_effects
    rw [if_neg (by rw [hout]; simp)]
    exact List.mem_append.mpr (Or.inl (List.mem_singleton.mpr rfl))

/-- Witness for the amended C8 at concrete arguments. -/
theorem main_names_witness :
    Effect.writeArchive (pjoin (lstr "/s") (lstr "custom")) ∈
      (main_run ⟨50, some (lstr "custom"), none⟩
        ⟨lstr "book", true, false, lstr "book", lstr "/s", []⟩).1 :=
  (main_names ⟨50, some (lstr "custom"), none⟩
    ⟨lstr "book", true, false, lstr "book", lstr "/s", []⟩ rfl rfl).1
    (lstr "custom") rfl

/-- Counterexample for C8 as stated: with custom name "custom" and a
source folder whose basename is "book", the run creates the output
directory "book_merged_comic" - a name not derived from the custom flag
- while the archive is written under the custom name verbatim. -/
theorem main_custom_name_cex :
    (main_run ⟨50, some (lstr "custom"), none⟩
        ⟨lstr "book", true, false, lstr "book", [], []⟩).1 =
      [.makeDirs (lstr "book_merged_comic"),
       .writeArchive (lstr "custom"),
       .printMsg (lstr "CBZ file created at: " ++ lstr "custom"),
       .printMsg (lstr "Merged folder created at: " ++
         lstr "book_merged_comic")] ∧
    lstr "book_merged_comic" ≠ lstr "custom_merged_comic" ∧
    lstr "book_merged_comic" ≠ lstr "custom" :=
  ⟨by decide, by decide, by decide⟩
